import Mathlib

/-!
Shallow embedding of `src/plqu.c` (price level queue) from the clob repository.

The C file implements a fixed pool of 256 queue slots (`_pool`), each slot a
growable power-of-two ring buffer addressed through the bitmask `z`, with
unbounded `head`/`tail` counters (1-based sequence ids), and a tombstone-aware
iterator.  All `size_t` arithmetic is modelled on `Nat` with explicit
`% 2 ^ 64` at every operation where the C code can wrap (`z--` on a fresh
slot, `(z + 1) * 2` during growth, `tail++`, `head++`, `tail + 1`).
-/

/-- Modelled from the spec: `plqu_val_t` (from `plqu_val.h`, not under `src/`)
is an external value type with a distinguished nil sentinel
(`plqu_val_nil`) and a total nil test (`plqu_val_nil_p`); nil is
distinguishable from every real value. -/
inductive PlquVal (α : Type) where
  | nil : PlquVal α
  | val : α → PlquVal α
deriving DecidableEq, Repr

/-- The nil sentinel `plqu_val_nil`. -/
def plqu_val_nil {α : Type} : PlquVal α := PlquVal.nil

/-- The nil test `plqu_val_nil_p`. -/
def plqu_val_nil_p {α : Type} : PlquVal α → Bool
  | PlquVal.nil => true
  | PlquVal.val _ => false

/-- `2 ^ 64` (as a numeral), the modulus of `size_t` arithmetic. -/
def W64 : Nat := 18446744073709551616

/-- `struct plqu_s` (plqu.c:49-55): `z` is "always a 2-power or a
2-power - 1U if in use"; `a` the backing buffer; `head`/`tail` the
wrapping `size_t` counters. -/
structure plqu_s (α : Type) where
  z : Nat
  a : List (PlquVal α)
  head : Nat
  tail : Nat
deriving DecidableEq, Repr

/-- The zero-initialized static slot (each entry of `_pool` at program start). -/
def plqu_dflt {α : Type} : plqu_s α := ⟨0, [], 0, 0⟩

instance {α : Type} : Inhabited (plqu_s α) := ⟨plqu_dflt⟩

/-- The static pool `_pool[256U]`, zero-initialized. -/
def pool0 (α : Type) : List (plqu_s α) := List.replicate 256 plqu_dflt

/-- `_next_free` (plqu.c:61-67): first index whose slot has `z & 1 == 0`
(free); returns `countof(_pool)` when every slot is in use. -/
def next_free {α : Type} (p : List (plqu_s α)) : Nat :=
  p.findIdx (fun s => s.z &&& 1 == 0)

/-- The slot update performed by `make_plqu` on the chosen slot:
`r->z--` (a `size_t` decrement, wrapping at 0). -/
def acquire_slot {α : Type} (s : plqu_s α) : plqu_s α :=
  { s with z := (s.z + (W64 - 1)) % W64 }

/-- `make_plqu` (plqu.c:70-78): acquire the first free slot and mark it in
use by `r->z--`.  The C code performs `_pool + _next_free()` and decrements
unconditionally; when no slot is free this accesses one past the end of the
array (undefined behavior, no error path).  The total model returns `none`
exactly at that out-of-bounds access. -/
def make_plqu {α : Type} (p : List (plqu_s α)) : Option (Nat × List (plqu_s α)) :=
  let i := next_free p
  if i < p.length then
    some (i, p.set i (acquire_slot (p.getD i plqu_dflt)))
  else
    none

/-- `free_plqu` (plqu.c:80-88): reset `head`/`tail` and mark the slot free
by `q->z++` (the buffer is retained). -/
def free_plqu {α : Type} (s : plqu_s α) : plqu_s α :=
  { s with head := 0, tail := 0, z := (s.z + 1) % W64 }

/-- `plqu_get` (plqu.c:90-98): range check `i > head && i <= tail`, then
read slot `(i - 1U) & z`.  The C read `q->a[slot]` is modelled totally with
`getD` (in every in-use state the masked slot is in bounds). -/
def plqu_get {α : Type} (q : plqu_s α) (i : Nat) : PlquVal α :=
  if i > q.head ∧ i ≤ q.tail then
    q.a.getD ((i - 1) &&& q.z) plqu_val_nil
  else
    plqu_val_nil

/-- `plqu_put` (plqu.c:100-109): range check, then overwrite slot
`(i - 1U) & z`; returns 0 on success, -1 when out of range.  The updated
queue is returned explicitly. -/
def plqu_put {α : Type} (q : plqu_s α) (i : Nat) (v : PlquVal α) : Int × plqu_s α :=
  if i > q.head ∧ i ≤ q.tail then
    (0, { q with a := q.a.set ((i - 1) &&& q.z) v })
  else
    (-1, q)

/-- `realloc(q->a, nuz * sizeof *q->a)`: contents up to `min(old, nuz)`
preserved, any fresh region indeterminate (modelled as nil; the code
overwrites or never reads it). -/
def reallocBuf {α : Type} (a : List (PlquVal α)) (nuz : Nat) : List (PlquVal α) :=
  a.take nuz ++ List.replicate (nuz - a.length) plqu_val_nil

/-- `memcpy(q->a + off, q->a, cnt * sizeof *q->a)`: copy entries
`[0, cnt)` of the buffer onto `[off, off + cnt)` (the two ranges are
disjoint at every call site, `off = cnt`). -/
def memcpyWithin {α : Type} (a : List (PlquVal α)) (off cnt : Nat) : List (PlquVal α) :=
  (List.range a.length).map
    (fun j => if off ≤ j ∧ j < off + cnt then a.getD (j - off) plqu_val_nil
              else a.getD j plqu_val_nil)

/-- The growth step inside `plqu_add` (plqu.c:115-129):
`nuz = ((z + 1U) * 2U) ?: PLQU_INIZ`, realloc, then clone the whole old
array after itself, then `z = nuz - 1U`. -/
def plqu_grow {α : Type} (q : plqu_s α) : plqu_s α :=
  let c := (q.z + 1) % W64
  let nuz0 := (c * 2) % W64
  let nuz := if nuz0 ≠ 0 then nuz0 else 8
  { q with z := nuz - 1, a := memcpyWithin (reallocBuf q.a nuz) c c }

/-- The store step of `plqu_add` (plqu.c:131-132):
`q->a[q->tail++ & q->z] = v; return q->tail;`. -/
def plqu_store {α : Type} (q : plqu_s α) (v : PlquVal α) : Nat × plqu_s α :=
  ((q.tail + 1) % W64,
   { q with a := q.a.set (q.tail &&& q.z) v, tail := (q.tail + 1) % W64 })

/-- `plqu_add` (plqu.c:111-133).  Growth triggers when
`q->tail - q->head >= q->z + 1U` (`size_t` arithmetic).  `allocOk` models
the `realloc` outcome: on failure the code returns qid `0ULL` before any
mutation. -/
def plqu_add {α : Type} (allocOk : Bool) (q : plqu_s α) (v : PlquVal α) :
    Nat × plqu_s α :=
  if (q.tail + W64 - q.head) % W64 ≥ (q.z + 1) % W64 then
    if allocOk then plqu_store (plqu_grow q) v else (0, q)
  else
    plqu_store q v

/-- `plqu_top` (plqu.c:135-146): peek at slot `head & z` when
`head < tail`, nil otherwise. -/
def plqu_top {α : Type} (q : plqu_s α) : PlquVal α :=
  if q.head < q.tail then q.a.getD (q.head &&& q.z) plqu_val_nil
  else plqu_val_nil

/-- `plqu_pop` (plqu.c:148-160): when `head < tail`, read slot
`head++ & z` (no nil test) and advance `head`; otherwise nil, unchanged. -/
def plqu_pop {α : Type} (q : plqu_s α) : PlquVal α × plqu_s α :=
  if q.head < q.tail then
    (q.a.getD (q.head &&& q.z) plqu_val_nil, { q with head := (q.head + 1) % W64 })
  else
    (plqu_val_nil, q)

/-- `plqu_iter_t`: a queue pointer (`none` models `NULL`), a position `i`,
and the last exposed value `v`.  The queue state is embedded so iterator
operations that write through the pointer return the updated queue. -/
structure plqu_iter_t (α : Type) where
  q : Option (plqu_s α)
  i : Nat
  v : PlquVal α
deriving DecidableEq, Repr

/-- The scan loop of `plqu_iter_next` (plqu.c:171-178): while `i < tail`,
read slot `(i++) & z`; stop at the first non-nil value.  On exhaustion the
position becomes `tail + 1U` and `v` is left unchanged.  (`i++` does not
wrap here: `i < tail < 2 ^ 64` for every `size_t`-representable state.) -/
def iterScan {α : Type} (q : plqu_s α) (i : Nat) (v : PlquVal α) :
    Bool × Nat × PlquVal α :=
  if i < q.tail then
    let x := q.a.getD (i &&& q.z) plqu_val_nil
    if plqu_val_nil_p x then iterScan q (i + 1) v
    else (true, i + 1, x)
  else
    (false, (q.tail + 1) % W64, v)
termination_by q.tail - i

/-- `plqu_iter_next` (plqu.c:163-182): `NULL` iterator reports false;
a position behind `head` is clamped up to `head`; then the scan loop. -/
def plqu_iter_next {α : Type} (it : plqu_iter_t α) : Bool × plqu_iter_t α :=
  match it.q with
  | none => (false, it)
  | some q =>
    let i0 := if it.i < q.head then q.head else it.i
    let r := iterScan q i0 it.v
    (r.1, { it with i := r.2.1, v := r.2.2 })

/-- `plqu_iter_qid` (plqu.c:184-189): the current id when `i <= tail`,
else `0ULL`.  The C code dereferences `iter.q` unconditionally (undefined
behavior on an unbound iterator); the total model returns 0 there. -/
def plqu_iter_qid {α : Type} (it : plqu_iter_t α) : Nat :=
  match it.q with
  | none => 0
  | some q => if it.i ≤ q.tail then it.i else 0

/-- `plqu_iter_put` (plqu.c:191-202): fails on an unbound iterator or when
`!iter.i || iter.i > tail`; otherwise delegates to `plqu_put`. -/
def plqu_iter_put {α : Type} (it : plqu_iter_t α) (v : PlquVal α) :
    Int × Option (plqu_s α) :=
  match it.q with
  | none => (-1, none)
  | some q =>
    if it.i = 0 ∨ it.i > q.tail then (-1, some q)
    else ((plqu_put q it.i v).1, some (plqu_put q it.i v).2)

/-- `plqu_iter_set_top` (plqu.c:204-215): fails on an unbound iterator or
when `!iter.i`; otherwise unconditionally `iter.q->head = iter.i - 1U`
(no check of `i` against `tail`). -/
def plqu_iter_set_top {α : Type} (it : plqu_iter_t α) : Int × Option (plqu_s α) :=
  match it.q with
  | none => (-1, none)
  | some q =>
    if it.i = 0 then (-1, some q)
    else (0, some { q with head := it.i - 1 })

/-- Append a whole list of values (with memory available), collecting the
returned qids.  Pure iteration of `plqu_add`, used to state sequence
properties. -/
def addAll {α : Type} (q : plqu_s α) (vs : List (PlquVal α)) :
    plqu_s α × List Nat :=
  match vs with
  | [] => (q, [])
  | v :: rest =>
    let r := plqu_add true q v
    let r2 := addAll r.2 rest
    (r2.1, r.1 :: r2.2)

/-- The buffer cell backing sequence id `m`: slot `(m - 1) & z`. -/
def valAt {α : Type} (q : plqu_s α) (m : Nat) : PlquVal α :=
  q.a.getD ((m - 1) &&& q.z) plqu_val_nil

/-- Slot invariant (amended from spec section 3 / claim C8): an in-use slot
(`z` odd) either is a never-grown fresh acquisition (`z = 2^64 - 1`, empty
buffer) or has `z` = buffer length − 1 with the length a power of two; a
free slot (`z` even) has `z = 0` with an empty buffer or `z` = buffer
length, a power of two. -/
def SlotInv {α : Type} (s : plqu_s α) : Prop :=
  (s.z % 2 = 1 →
    (s.z = W64 - 1 ∧ s.a.length = 0) ∨
    (∃ k, 1 ≤ k ∧ k ≤ 63 ∧ s.z = 2 ^ k - 1 ∧ s.a.length = 2 ^ k)) ∧
  (s.z % 2 = 0 →
    (s.z = 0 ∧ s.a.length = 0) ∨
    (∃ k, 1 ≤ k ∧ k ≤ 63 ∧ s.z = 2 ^ k ∧ s.a.length = 2 ^ k))

/-- Every free slot (`z` even) of the pool has `head = tail = 0`. -/
def FreeInv {α : Type} (p : List (plqu_s α)) : Prop :=
  ∀ i, i < p.length → (p.getD i plqu_dflt).z % 2 = 0 →
    (p.getD i plqu_dflt).head = 0 ∧ (p.getD i plqu_dflt).tail = 0

/-- Reachable pool states.  `qop` over-approximates every queue-core
operation applied through an acquired handle (`plqu_add`, `plqu_put`,
`plqu_pop`, `plqu_iter_set_top`, `plqu_iter_put`): each of them keeps the
slot's `z` odd and is performed on an in-use slot. -/
inductive Reach {α : Type} : List (plqu_s α) → Prop where
  | init : Reach (pool0 α)
  | acq (p : List (plqu_s α)) (i : Nat) (p' : List (plqu_s α)) :
      Reach p → make_plqu p = some (i, p') → Reach p'
  | rel (p : List (plqu_s α)) (i : Nat) :
      Reach p → i < p.length → (p.getD i plqu_dflt).z % 2 = 1 →
      Reach (p.set i (free_plqu (p.getD i plqu_dflt)))
  | qop (p : List (plqu_s α)) (i : Nat) (s' : plqu_s α) :
      Reach p → i < p.length → (p.getD i plqu_dflt).z % 2 = 1 →
      s'.z % 2 = 1 → Reach (p.set i s')

/-- Invariant of a queue that has had exactly the values `p` appended (in
order) since acquisition, with no pops: `head = 0`, `tail` = number of
appends, and the buffer holds `p` linearly in its first `p.length` cells.
The queue is either the degenerate never-grown fresh slot or a grown slot
of capacity `2 ^ k`. -/
def InvP {α : Type} (p : List (PlquVal α)) (q : plqu_s α) : Prop :=
  q.head = 0 ∧ q.tail = p.length ∧
  ((q.z = W64 - 1 ∧ q.a = [] ∧ p = []) ∨
   (∃ k, 3 ≤ k ∧ k ≤ 62 ∧ q.z = 2 ^ k - 1 ∧ q.a.length = 2 ^ k ∧
     p.length ≤ 2 ^ k ∧
     ∀ i, i < p.length → q.a.getD i plqu_val_nil = p.getD i plqu_val_nil))

/-- The pool after one acquire from the initial state (slot 0 in use). -/
def pool_one_acquired : List (plqu_s Nat) :=
  (pool0 Nat).set 0 (acquire_slot plqu_dflt)

/- ------------------------------------------------------------------ -/
/- Helper lemmas about the buffer primitives.                          -/
/- ------------------------------------------------------------------ -/

theorem reallocBuf_length {α : Type} (a : List (PlquVal α)) (nuz : Nat) :
    (reallocBuf a nuz).length = nuz := by
  simp only [reallocBuf, List.length_append, List.length_take, List.length_replicate]
  omega

theorem memcpyWithin_length {α : Type} (a : List (PlquVal α)) (off cnt : Nat) :
    (memcpyWithin a off cnt).length = a.length := by
  simp [memcpyWithin]

theorem getD_memcpyWithin {α : Type} (a : List (PlquVal α)) (off cnt j : Nat)
    (hj : j < a.length) :
    (memcpyWithin a off cnt).getD j plqu_val_nil =
      if off ≤ j ∧ j < off + cnt then a.getD (j - off) plqu_val_nil
      else a.getD j plqu_val_nil := by
  have hlen : j < (memcpyWithin a off cnt).length := by
    rw [memcpyWithin_length]; exact hj
  rw [List.getD_eq_getElem _ _ hlen]
  simp [memcpyWithin]

theorem getD_set_ne {β : Type} (l : List β) (i j : Nat) (v d : β) (h : i ≠ j) :
    (l.set i v).getD j d = l.getD j d := by
  rcases Nat.lt_or_ge j l.length with hj | hj
  · rw [List.getD_eq_getElem _ _ (by simpa using hj),
      List.getD_eq_getElem _ _ hj, List.getElem_set_ne h]
  · rw [List.getD_eq_default _ _ (by simpa using hj), List.getD_eq_default _ _ hj]

theorem getD_set_self {β : Type} (l : List β) (i : Nat) (v d : β)
    (h : i < l.length) :
    (l.set i v).getD i d = v := by
  rw [List.getD_eq_getElem _ _ (by simpa using h), List.getElem_set_self]

/-- Scan-loop characterization: on success the returned position is one
past the first non-nil slot at or after `i`; on failure every slot in
`[i, tail)` is nil and the position is `tail + 1`. -/
theorem iterScan_spec {α : Type} (q : plqu_s α) (v : PlquVal α) (i : Nat) :
    ((iterScan q i v).1 = true →
      i < (iterScan q i v).2.1 ∧ (iterScan q i v).2.1 ≤ q.tail ∧
      plqu_val_nil_p (q.a.getD (((iterScan q i v).2.1 - 1) &&& q.z) plqu_val_nil)
        = false ∧
      (iterScan q i v).2.2 =
        q.a.getD (((iterScan q i v).2.1 - 1) &&& q.z) plqu_val_nil ∧
      ∀ j, i ≤ j → j + 1 < (iterScan q i v).2.1 →
        plqu_val_nil_p (q.a.getD (j &&& q.z) plqu_val_nil) = true) ∧
    ((iterScan q i v).1 = false →
      (iterScan q i v).2.1 = (q.tail + 1) % W64 ∧ (iterScan q i v).2.2 = v ∧
      ∀ j, i ≤ j → j < q.tail →
        plqu_val_nil_p (q.a.getD (j &&& q.z) plqu_val_nil) = true) := by
  induction i, v using iterScan.induct q with
  | case1 i v hlt x hx ih =>
    have hx' : plqu_val_nil_p (q.a.getD (i &&& q.z) plqu_val_nil) = true := hx
    have hEq : iterScan q i v = iterScan q (i + 1) v := by
      rw [iterScan.eq_def, if_pos hlt]; exact if_pos hx'
    rw [hEq]
    refine ⟨fun ht => ?_, fun hf => ?_⟩
    · obtain ⟨h1, h2, h3, h4, h5⟩ := ih.1 ht
      refine ⟨by omega, h2, h3, h4, fun j hj1 hj2 => ?_⟩
      rcases Nat.eq_or_lt_of_le hj1 with rfl | hij
      · exact hx'
      · exact h5 j hij hj2
    · obtain ⟨e1, e2, e3⟩ := ih.2 hf
      refine ⟨e1, e2, fun j hj1 hj2 => ?_⟩
      rcases Nat.eq_or_lt_of_le hj1 with rfl | hij
      · exact hx'
      · exact e3 j hij hj2
  | case2 i v hlt x hx =>
    have hx' : plqu_val_nil_p (q.a.getD (i &&& q.z) plqu_val_nil) = false :=
      Bool.eq_false_iff.mpr hx
    have hEq : iterScan q i v =
        (true, i + 1, q.a.getD (i &&& q.z) plqu_val_nil) := by
      rw [iterScan.eq_def, if_pos hlt]; exact if_neg hx
    rw [hEq]
    refine ⟨fun _ => ?_, fun hf => by simp at hf⟩
    have hx2 : plqu_val_nil_p (q.a.getD (i + 1 - 1 &&& q.z) plqu_val_nil) = false := by
      simp only [Nat.add_sub_cancel]; exact hx'
    exact ⟨Nat.lt_succ_self i, hlt, hx2, by simp only [Nat.add_sub_cancel],
      fun j hj1 hj2 => by simp only [] at hj2; omega⟩
  | case3 i v hlt =>
    have hEq : iterScan q i v = (false, (q.tail + 1) % W64, v) := by
      rw [iterScan.eq_def, if_neg hlt]
    rw [hEq]
    exact ⟨fun ht => by simp at ht,
      fun _ => ⟨rfl, rfl, fun j hj1 hj2 => by omega⟩⟩

/-- Queue and result of `plqu_iter_next` expressed through `iterScan`. -/
theorem plqu_iter_next_eq {α : Type} (it : plqu_iter_t α) (q : plqu_s α)
    (hq : it.q = some q) :
    plqu_iter_next it =
      ((iterScan q (if it.i < q.head then q.head else it.i) it.v).1,
       { it with
         i := (iterScan q (if it.i < q.head then q.head else it.i) it.v).2.1,
         v := (iterScan q (if it.i < q.head then q.head else it.i) it.v).2.2 }) := by
  simp [plqu_iter_next, hq]

/-- C6: iterator advance.  On an unbound iterator it reports not-found and
changes nothing.  Otherwise, with `i0` the position clamped up to `head`,
it finds the smallest id `m` in `(i0, tail]` holding a non-nil value
(reports found, leaves the position at `m`, exposes its value), and if
every id in `(i0, tail]` is nil (or the range is empty) it reports
not-found and leaves the position at `tail + 1`; the queue itself is not
mutated. -/
theorem plqu_iter_next_full_spec {α : Type} (it : plqu_iter_t α) :
    (it.q = none → plqu_iter_next it = (false, it)) ∧
    ∀ q, it.q = some q → q.tail + 1 < W64 →
      ((plqu_iter_next it).2.q = it.q ∧
       ((plqu_iter_next it).1 = true →
         (if it.i < q.head then q.head else it.i) < (plqu_iter_next it).2.i ∧
         (plqu_iter_next it).2.i ≤ q.tail ∧
         plqu_val_nil_p (valAt q ((plqu_iter_next it).2.i)) = false ∧
         (plqu_iter_next it).2.v = valAt q ((plqu_iter_next it).2.i) ∧
         ∀ m, (if it.i < q.head then q.head else it.i) < m →
           m < (plqu_iter_next it).2.i → plqu_val_nil_p (valAt q m) = true) ∧
       ((plqu_iter_next it).1 = false →
         (plqu_iter_next it).2.i = q.tail + 1 ∧ (plqu_iter_next it).2.v = it.v ∧
         ∀ m, (if it.i < q.head then q.head else it.i) < m → m ≤ q.tail →
           plqu_val_nil_p (valAt q m) = true) ∧
       ((plqu_iter_next it).1 = true ↔
         ∃ m, (if it.i < q.head then q.head else it.i) < m ∧ m ≤ q.tail ∧
           plqu_val_nil_p (valAt q m) = false)) := by
  refine ⟨fun h => by simp [plqu_iter_next, h], fun q hq hT => ?_⟩
  have hnext := plqu_iter_next_eq it q hq
  obtain ⟨hTrue, hFalse⟩ :=
    iterScan_spec q it.v (if it.i < q.head then q.head else it.i)
  rw [hnext]
  simp only []
  refine ⟨trivial, fun ht => ?_, fun hf => ?_, ?_⟩
  · obtain ⟨h1, h2, h3, h4, h5⟩ := hTrue ht
    refine ⟨h1, h2, h3, h4, fun m hm1 hm2 => ?_⟩
    have := h5 (m - 1) (by omega) (by omega)
    have hm : m - 1 + 1 = m := by omega
    simpa [valAt, hm] using this
  · obtain ⟨e1, e2, e3⟩ := hFalse hf
    refine ⟨by rw [e1]; exact Nat.mod_eq_of_lt hT, e2, fun m hm1 hm2 => ?_⟩
    have := e3 (m - 1) (by omega) (by omega)
    simpa [valAt] using this
  · constructor
    · intro ht
      obtain ⟨h1, h2, h3, _, _⟩ := hTrue ht
      exact ⟨_, h1, h2, h3⟩
    · rintro ⟨m, hm1, hm2, hm3⟩
      rcases hb : (iterScan q (if it.i < q.head then q.head else it.i) it.v).1 with _ | _
      · obtain ⟨_, _, e3⟩ := hFalse hb
        have := e3 (m - 1) (by omega) (by omega)
        rw [show m - 1 &&& q.z = m - 1 &&& q.z from rfl] at this
        have hvm : plqu_val_nil_p (valAt q m) = true := by
          simpa [valAt] using this
        rw [hvm] at hm3; cases hm3
      · rfl

/-- C5 counterexample: an exhausted iterator (`i = tail + 1`, so
`plqu_iter_qid` reports no valid current id) is nonetheless accepted by
`plqu_iter_set_top`, which succeeds (returns 0, not -1) and sets
`head = tail`, emptying the queue — the claim says it must fail. -/
theorem set_top_exhausted_succeeds_cex :
    plqu_iter_qid (plqu_iter_t.mk
      (some (plqu_s.mk 7 (List.replicate 8 (plqu_val_nil (α := Nat))) 0 2))
      3 plqu_val_nil) = 0 ∧
    plqu_iter_set_top (plqu_iter_t.mk
      (some (plqu_s.mk 7 (List.replicate 8 (plqu_val_nil (α := Nat))) 0 2))
      3 plqu_val_nil) ≠ (-1,
        some (plqu_s.mk 7 (List.replicate 8 (plqu_val_nil (α := Nat))) 0 2)) ∧
    plqu_iter_set_top (plqu_iter_t.mk
      (some (plqu_s.mk 7 (List.replicate 8 (plqu_val_nil (α := Nat))) 0 2))
      3 plqu_val_nil) =
      (0, some (plqu_s.mk 7 (List.replicate 8 (plqu_val_nil (α := Nat))) 2 2)) := by
  refine ⟨by decide, by decide, by decide⟩

/-- C5 (amended): `plqu_iter_set_top` fails exactly on an unbound iterator
or position 0; it does not validate the position against `tail`.  When it
runs after an advance that found id `k` (so `k ≠ 0`), it succeeds and sets
the queue's head to `k - 1`. -/
theorem set_top_failure_and_commit_amended {α : Type} (it : plqu_iter_t α) :
    (it.q = none → plqu_iter_set_top it = (-1, none)) ∧
    (it.i = 0 → (plqu_iter_set_top it).1 = -1) ∧
    (∀ q it2, it.q = some q → plqu_iter_next it = (true, it2) →
      plqu_iter_set_top it2 = (0, some { q with head := it2.i - 1 })) := by
  refine ⟨fun h => by simp [plqu_iter_set_top, h], fun h => ?_,
    fun q it2 hq hnx => ?_⟩
  · cases hqq : it.q with
    | none => simp [plqu_iter_set_top, hqq]
    | some q => simp [plqu_iter_set_top, hqq, h]
  · have hnext := plqu_iter_next_eq it q hq
    obtain ⟨hA, hB⟩ := Prod.ext_iff.mp (hnext.symm.trans hnx)
    subst hB
    have hfound := ((iterScan_spec q it.v
      (if it.i < q.head then q.head else it.i)).1 hA).1
    have hne : (iterScan q (if it.i < q.head then q.head else it.i) it.v).2.1 ≠ 0 := by
      omega
    simp [plqu_iter_set_top, hq, hne]

/-- C5 amended, witnessed at an unbound iterator: commit fails. -/
theorem set_top_failure_and_commit_amended_witness :
    plqu_iter_set_top (plqu_iter_t.mk (none : Option (plqu_s Nat)) 5 plqu_val_nil)
      = (-1, none) :=
  (set_top_failure_and_commit_amended _).1 rfl

/-- C10: `plqu_iter_set_top` does not clamp the position to the queue's
current head: for every bound iterator with position `i ≠ 0` it
unconditionally succeeds and sets `head = i - 1`.  Consequently a stale
iterator at or before `head` moves `head` backwards (previously popped
ids pass the range check again), and an exhausted iterator (`i = tail + 1`)
sets `head = tail`, emptying the queue. -/
theorem set_top_unconditional_spec {α : Type} (it : plqu_iter_t α)
    (q : plqu_s α) (hq : it.q = some q) (hi : it.i ≠ 0) :
    plqu_iter_set_top it = (0, some { q with head := it.i - 1 }) ∧
    (it.i ≤ q.head → it.i - 1 < q.head) ∧
    (it.i = q.tail + 1 → it.i - 1 = q.tail) ∧
    (∀ id, it.i - 1 < id → id ≤ q.tail →
      plqu_get { q with head := it.i - 1 } id =
        q.a.getD ((id - 1) &&& q.z) plqu_val_nil) := by
  refine ⟨by simp [plqu_iter_set_top, hq, hi], by omega, by omega,
    fun id h1 h2 => ?_⟩
  simp only [plqu_get]
  rw [if_pos ⟨h1, h2⟩]

/-- C10 witnessed at a stale iterator (`i = 1 ≤ head = 2`): the commit
succeeds and moves `head` backwards from 2 to 0. -/
theorem set_top_unconditional_spec_witness :
    plqu_iter_set_top (plqu_iter_t.mk
      (some (plqu_s.mk 7 (List.replicate 8 (plqu_val_nil (α := Nat))) 2 3))
      1 plqu_val_nil) =
      (0, some (plqu_s.mk 7 (List.replicate 8 (plqu_val_nil (α := Nat))) 0 3)) :=
  (set_top_unconditional_spec _ _ rfl (by decide)).1

/-- C6 witnessed on a queue `[nil, nil, val 30]` with the iterator at the
start: advance does not mutate the queue pointer/state. -/
theorem plqu_iter_next_full_spec_witness :
    ((plqu_iter_next (plqu_iter_t.mk
        (some (plqu_s.mk 3 [plqu_val_nil, plqu_val_nil, PlquVal.val (30 : Nat)] 0 3))
        0 plqu_val_nil)).2).q =
      some (plqu_s.mk 3 [plqu_val_nil, plqu_val_nil, PlquVal.val (30 : Nat)] 0 3) :=
  ((plqu_iter_next_full_spec _).2 _ rfl (by decide)).1

/-- C7: `plqu_pop` with `head < tail` returns the value stored at id
`head + 1` (whatever it is, including the nil sentinel of a tombstoned
front) and advances `head` by exactly one; on an empty queue
(`head = tail`) it returns nil and leaves the queue unchanged. -/
theorem plqu_pop_spec {α : Type} (q : plqu_s α) (hT : q.tail < W64) :
    (q.head < q.tail →
      plqu_pop q = (plqu_get q (q.head + 1), { q with head := q.head + 1 })) ∧
    (q.head = q.tail → plqu_pop q = (plqu_val_nil, q)) := by
  constructor
  · intro h
    unfold plqu_pop plqu_get
    rw [if_pos h, if_pos ⟨Nat.lt_succ_self q.head, h⟩]
    rw [Nat.mod_eq_of_lt (by omega), Nat.add_sub_cancel]
  · intro h
    unfold plqu_pop
    rw [if_neg (by omega)]

/-- C7 witnessed on a queue whose front (id 1) is a tombstone: pop returns
nil and still advances `head` from 0 to 1. -/
theorem plqu_pop_spec_witness :
    plqu_pop (plqu_s.mk 7 [plqu_val_nil, PlquVal.val (5 : Nat)] 0 2) =
      (plqu_get (plqu_s.mk 7 [plqu_val_nil, PlquVal.val (5 : Nat)] 0 2) 1,
       plqu_s.mk 7 [plqu_val_nil, PlquVal.val (5 : Nat)] 1 2) :=
  (plqu_pop_spec _ (by decide)).1 (by decide)

/-- C4: when growth triggers (`tail - head >= z + 1` in `size_t`
arithmetic) and the reallocation fails, `plqu_add` returns the sentinel
qid 0 and the queue — buffer contents, `head`, `tail`, `z` — is returned
exactly as it was. -/
theorem plqu_add_alloc_failure_atomic {α : Type} (q : plqu_s α) (v : PlquVal α)
    (h : (q.tail + W64 - q.head) % W64 ≥ (q.z + 1) % W64) :
    plqu_add false q v = (0, q) := by
  unfold plqu_add
  rw [if_pos h]
  rfl

/-- C4 witnessed on a full capacity-8 queue. -/
theorem plqu_add_alloc_failure_atomic_witness :
    plqu_add false (plqu_s.mk 7 (List.replicate 8 (plqu_val_nil (α := Nat))) 0 8)
        (PlquVal.val 9) =
      (0, plqu_s.mk 7 (List.replicate 8 (plqu_val_nil (α := Nat))) 0 8) :=
  plqu_add_alloc_failure_atomic _ _ (by decide)

/-- C1: when every slot of the pool is in use (`z` odd), `_next_free`
scans to the end and returns the pool length itself, and `make_plqu`
reaches the out-of-bounds access one past the array (the model's `none`):
the code has no pool-exhausted error path — it never returns an error
value, it commits undefined behavior instead. -/
theorem make_plqu_full_pool_runs_off_end {α : Type} (p : List (plqu_s α))
    (hfull : ∀ i, i < p.length → (p.getD i plqu_dflt).z % 2 = 1) :
    next_free p = p.length ∧ make_plqu p = none := by
  have hidx : p.findIdx (fun s => s.z &&& 1 == 0) = p.length := by
    apply List.findIdx_eq_length_of_false
    intro x hx
    obtain ⟨i, hi, hEq⟩ := List.getElem_of_mem hx
    have hodd := hfull i hi
    rw [List.getD_eq_getElem _ _ hi, hEq] at hodd
    simp [Nat.and_one_is_mod, hodd]
  refine ⟨hidx, ?_⟩
  simp only [make_plqu, next_free, hidx]
  simp

set_option maxRecDepth 4000 in
/-- C1 witnessed at the concrete pool of 256 in-use capacity-8 slots. -/
theorem make_plqu_full_pool_runs_off_end_witness :
    next_free (List.replicate 256
        (plqu_s.mk 7 (List.replicate 8 (plqu_val_nil (α := Nat))) 0 0)) = 256 ∧
    make_plqu (List.replicate 256
        (plqu_s.mk 7 (List.replicate 8 (plqu_val_nil (α := Nat))) 0 0)) = none :=
  make_plqu_full_pool_runs_off_end _ (by decide)

theorem getD_reallocBuf {α : Type} (a : List (PlquVal α)) (nuz j : Nat)
    (hj : j < a.length) (h2 : a.length ≤ nuz) :
    (reallocBuf a nuz).getD j plqu_val_nil = a.getD j plqu_val_nil := by
  unfold reallocBuf
  rw [List.take_of_length_le h2]
  exact List.getD_append _ _ _ _ hj

/-- After the double-copy growth of a full buffer of length `c` to length
`2 * c`, cell `j` holds the old cell `j % c`. -/
theorem getD_grown {α : Type} (a : List (PlquVal α)) (c j : Nat)
    (hc : 0 < c) (hlen : a.length = c) (hj : j < 2 * c) :
    (memcpyWithin (reallocBuf a (2 * c)) c c).getD j plqu_val_nil =
      a.getD (j % c) plqu_val_nil := by
  have hrl : (reallocBuf a (2 * c)).length = 2 * c := reallocBuf_length a _
  rw [getD_memcpyWithin _ _ _ _ (by rw [hrl]; exact hj)]
  rcases Nat.lt_or_ge j c with hlt | hge
  · rw [if_neg (by omega)]
    rw [getD_reallocBuf a _ _ (by omega) (by omega)]
    congr 1
    rw [Nat.mod_eq_of_lt (by omega)]
  · rw [if_pos ⟨hge, by omega⟩]
    rw [getD_reallocBuf a _ _ (by omega) (by omega)]
    congr 1
    rw [Nat.mod_eq_sub_mod hge, Nat.mod_eq_of_lt (by omega)]

/-- The arithmetic facts entering a growth step from capacity `2 ^ k`. -/
theorem plqu_add_grow_shape {α : Type} (q : plqu_s α) (v : PlquVal α)
    (k : Nat) (hk : k ≤ 62) (hz : q.z = 2 ^ k - 1)
    (hht : q.head ≤ q.tail) (hT : q.tail < W64)
    (hfull : 2 ^ k ≤ q.tail - q.head) :
    plqu_add true q v =
      ((q.tail + 1) % W64,
       { q with
         z := 2 * 2 ^ k - 1,
         a := (memcpyWithin (reallocBuf q.a (2 * 2 ^ k)) (2 ^ k) (2 ^ k)).set
                (q.tail % (2 * 2 ^ k)) v,
         tail := (q.tail + 1) % W64 }) := by
  have hcpos : 0 < (2:Nat) ^ k := Nat.pos_pow_of_pos _ (by norm_num)
  have h2k : (2:Nat) ^ k < W64 := by
    calc (2:Nat) ^ k ≤ 2 ^ 62 := Nat.pow_le_pow_right (by norm_num) hk
    _ < W64 := by norm_num [W64]
  have h2k1 : 2 * (2:Nat) ^ k < W64 := by
    calc 2 * (2:Nat) ^ k ≤ 2 * 2 ^ 62 :=
      Nat.mul_le_mul_left 2 (Nat.pow_le_pow_right (by norm_num) hk)
    _ < W64 := by norm_num [W64]
  have hc1 : (q.z + 1) % W64 = 2 ^ k := by
    rw [hz, Nat.sub_add_cancel hcpos]
    exact Nat.mod_eq_of_lt h2k
  have hcond : (q.tail + W64 - q.head) % W64 ≥ (q.z + 1) % W64 := by
    rw [hc1]
    have hrw : q.tail + W64 - q.head = W64 + (q.tail - q.head) := by omega
    rw [hrw, Nat.add_mod_left,
      Nat.mod_eq_of_lt (show q.tail - q.head < W64 by omega)]
    exact hfull
  have hc2 : (2 ^ k * 2) % W64 = 2 * 2 ^ k := by
    rw [Nat.mul_comm]
    exact Nat.mod_eq_of_lt h2k1
  have hgrow : plqu_grow q =
      { q with
        z := 2 * 2 ^ k - 1,
        a := memcpyWithin (reallocBuf q.a (2 * 2 ^ k)) (2 ^ k) (2 ^ k) } := by
    simp only [plqu_grow, hc1, hc2]
    rw [if_pos (by omega)]
  have hadd : plqu_add true q v = plqu_store (plqu_grow q) v := by
    unfold plqu_add
    rw [if_pos hcond]
    rfl
  have hand : q.tail &&& (2 * 2 ^ k - 1) = q.tail % (2 * 2 ^ k) := by
    have hpow : 2 * (2:Nat) ^ k = 2 ^ (k + 1) := by
      rw [Nat.pow_succ, Nat.mul_comm]
    rw [hpow, Nat.and_pow_two_sub_one_eq_mod]
  rw [hadd, hgrow]
  unfold plqu_store
  dsimp only
  rw [hand]

/-- C2: when append triggers growth on an in-use queue of capacity
`2 ^ k` holding a full window (`tail - head = 2 ^ k`), after growth every
id in the live window `(head, tail]` is accessible at
`buffer[(id - 1) mod new_capacity]` (new capacity `2 * 2 ^ k`) and returns
the same value it held before growth — including when the window
physically wrapped around the old buffer end (the double-copy
re-linearizes it). -/
theorem plqu_add_growth_preserves_window {α : Type} (q : plqu_s α)
    (v : PlquVal α) (k : Nat) (hk : k ≤ 62) (hz : q.z = 2 ^ k - 1)
    (hlen : q.a.length = 2 ^ k) (hht : q.head ≤ q.tail) (hT : q.tail < W64)
    (hfull : q.tail - q.head = 2 ^ k) :
    (plqu_add true q v).2.z = 2 * 2 ^ k - 1 ∧
    (plqu_add true q v).2.a.length = 2 * 2 ^ k ∧
    ∀ id, q.head < id → id ≤ q.tail →
      (plqu_add true q v).2.a.getD ((id - 1) % (2 * 2 ^ k)) plqu_val_nil =
        plqu_get q id := by
  have hcpos : 0 < (2:Nat) ^ k := Nat.pos_pow_of_pos _ (by norm_num)
  have hshape := plqu_add_grow_shape q v k hk hz hht hT (le_of_eq hfull.symm)
  rw [hshape]
  dsimp only
  refine ⟨rfl, ?_, ?_⟩
  · rw [List.length_set, memcpyWithin_length, reallocBuf_length]
  · intro id hid1 hid2
    have hne : (id - 1) % (2 * 2 ^ k) ≠ q.tail % (2 * 2 ^ k) := by
      intro hEqm
      have hle : id - 1 ≤ q.tail := by omega
      have hdvd : 2 * 2 ^ k ∣ q.tail - (id - 1) :=
        (Nat.modEq_iff_dvd' hle).mp hEqm
      have hpos : 0 < q.tail - (id - 1) := by omega
      have hge := Nat.le_of_dvd hpos hdvd
      omega
    rw [getD_set_ne _ _ _ _ _ (Ne.symm hne)]
    rw [getD_grown q.a (2 ^ k) _ hcpos hlen (Nat.mod_lt _ (by omega))]
    rw [Nat.mod_mod_of_dvd _ (dvd_mul_left (2 ^ k) 2)]
    unfold plqu_get
    rw [if_pos ⟨hid1, hid2⟩, hz, Nat.and_pow_two_sub_one_eq_mod]

/-- C2 witnessed on a capacity-2 queue whose full window `(3, 5]` wraps
the physical buffer: after growth id 4 still reads its pre-growth value. -/
theorem plqu_add_growth_preserves_window_witness :
    (plqu_add true (plqu_s.mk 1 [PlquVal.val (10:Nat), PlquVal.val 11] 3 5)
        (PlquVal.val 99)).2.a.getD ((4 - 1) % (2 * 2 ^ 1)) plqu_val_nil =
      plqu_get (plqu_s.mk 1 [PlquVal.val (10:Nat), PlquVal.val 11] 3 5) 4 :=
  (plqu_add_growth_preserves_window
    (plqu_s.mk 1 [PlquVal.val (10:Nat), PlquVal.val 11] 3 5) (PlquVal.val 99)
    1 (by norm_num) rfl rfl (by norm_num) (by norm_num [W64])
    (by norm_num)).2.2 4 (by norm_num) (by norm_num)

theorem acquire_slot_head {α : Type} (s : plqu_s α) :
    (acquire_slot s).head = s.head := by cases s; rfl

theorem acquire_slot_tail {α : Type} (s : plqu_s α) :
    (acquire_slot s).tail = s.tail := by cases s; rfl

theorem acquire_slot_a {α : Type} (s : plqu_s α) :
    (acquire_slot s).a = s.a := by cases s; rfl

theorem free_plqu_a {α : Type} (s : plqu_s α) :
    (free_plqu s).a = s.a := by cases s; rfl

theorem mod_W64_parity (x : Nat) : x % W64 % 2 = x % 2 :=
  Nat.mod_mod_of_dvd x ⟨2 ^ 63, by norm_num [W64]⟩

theorem acquire_slot_parity {α : Type} (s : plqu_s α) (h : s.z % 2 = 0) :
    (acquire_slot s).z % 2 = 1 := by
  show (s.z + (W64 - 1)) % W64 % 2 = 1
  rw [mod_W64_parity, Nat.add_mod, h]
  norm_num [W64]

theorem free_plqu_parity {α : Type} (s : plqu_s α) (h : s.z % 2 = 1) :
    (free_plqu s).z % 2 = 0 := by
  show (s.z + 1) % W64 % 2 = 0
  rw [mod_W64_parity, Nat.add_mod, h]

/-- The slot found by `_next_free` (when in range) is free: `z` even. -/
theorem next_free_slot_free {α : Type} (p : List (plqu_s α))
    (h : next_free p < p.length) :
    (p.getD (next_free p) plqu_dflt).z % 2 = 0 := by
  unfold next_free at *
  have hp := @List.findIdx_getElem (plqu_s α) (fun s => s.z &&& 1 == 0) p h
  rw [List.getD_eq_getElem _ _ h]
  simpa [Nat.and_one_is_mod] using hp

theorem getD_replicate_dflt {α : Type} (i n : Nat) :
    (List.replicate n (plqu_dflt (α := α))).getD i plqu_dflt = plqu_dflt := by
  rcases Nat.lt_or_ge i n with h | h
  · rw [List.getD_eq_getElem _ _ (by simpa using h)]
    exact List.getElem_replicate _ _
  · exact List.getD_eq_default _ _ (by simpa using h)

/-- Every reachable pool state keeps `head = tail = 0` on free slots. -/
theorem reach_freeInv {α : Type} (p : List (plqu_s α)) (h : Reach p) :
    FreeInv p := by
  induction h with
  | init =>
    intro i hi _
    have hrep : ((pool0 α).getD i plqu_dflt) = plqu_dflt :=
      getD_replicate_dflt i 256
    rw [hrep]
    exact ⟨rfl, rfl⟩
  | acq p i p' hp hmk ih =>
    by_cases hlt : next_free p < p.length
    · have hsome : make_plqu p =
          some (next_free p,
            p.set (next_free p) (acquire_slot (p.getD (next_free p) plqu_dflt))) := by
        simp only [make_plqu]
        rw [if_pos hlt]
      have h2 := Option.some.inj (hmk.symm.trans hsome)
      obtain ⟨hieq, hpeq⟩ := Prod.ext_iff.mp h2
      subst hpeq
      intro m hm hmz
      rw [List.length_set] at hm
      by_cases hmi : m = next_free p
      · subst hmi
        rw [getD_set_self _ _ _ _ hlt] at hmz
        have hfree := next_free_slot_free p hlt
        have := acquire_slot_parity _ hfree
        omega
      · rw [getD_set_ne _ _ _ _ _ (Ne.symm hmi)] at hmz ⊢
        exact ih m hm hmz
    · exfalso
      have hnone : make_plqu p = none := by
        simp only [make_plqu]
        rw [if_neg hlt]
      rw [hmk] at hnone
      cases hnone
  | rel p i hp hi hz ih =>
    intro m hm hmz
    rw [List.length_set] at hm
    by_cases hmi : m = i
    · subst hmi
      rw [getD_set_self _ _ _ _ hi]
      exact ⟨rfl, rfl⟩
    · rw [getD_set_ne _ _ _ _ _ (Ne.symm hmi)] at hmz ⊢
      exact ih m hm hmz
  | qop p i s' hp hi hz hs ih =>
    intro m hm hmz
    rw [List.length_set] at hm
    by_cases hmi : m = i
    · subst hmi
      rw [getD_set_self _ _ _ _ hi] at hmz
      omega
    · rw [getD_set_ne _ _ _ _ _ (Ne.symm hmi)] at hmz ⊢
      exact ih m hm hmz

set_option maxRecDepth 2000 in
/-- C9: from any reachable pool, releasing an in-use handle and then
acquiring yields a handle with empty logical contents: `head = tail = 0`
and `plqu_get` returns nil for every id, whatever physical capacity the
slot retained. -/
theorem release_acquire_round_trip {α : Type} (p : List (plqu_s α)) (i : Nat)
    (hr : Reach p) (hi : i < p.length)
    (hodd : (p.getD i plqu_dflt).z % 2 = 1) :
    ∃ j p2,
      make_plqu (p.set i (free_plqu (p.getD i plqu_dflt))) = some (j, p2) ∧
      (p2.getD j plqu_dflt).head = 0 ∧ (p2.getD j plqu_dflt).tail = 0 ∧
      ∀ id, plqu_get (p2.getD j plqu_dflt) id = plqu_val_nil := by
  have hr1 : Reach (p.set i (free_plqu (p.getD i plqu_dflt))) :=
    Reach.rel p i hr hi hodd
  have hFI := reach_freeInv _ hr1
  set p1 := p.set i (free_plqu (p.getD i plqu_dflt)) with hp1
  have hlen1 : p1.length = p.length := by rw [hp1]; simp
  have hi1 : i < p1.length := by rw [hlen1]; exact hi
  have hfree_i : (p1.getD i plqu_dflt).z % 2 = 0 := by
    rw [hp1, getD_set_self _ _ _ _ hi]
    exact free_plqu_parity _ hodd
  have hex : ∃ x ∈ p1, (fun s => s.z &&& 1 == 0) x = true := by
    refine ⟨p1.getD i plqu_dflt, ?_, ?_⟩
    · rw [List.getD_eq_getElem _ _ hi1]
      exact List.getElem_mem _
    · simpa [Nat.and_one_is_mod] using hfree_i
  have hlt : next_free p1 < p1.length := List.findIdx_lt_length_of_exists hex
  have hfreej := next_free_slot_free p1 hlt
  have hht := hFI (next_free p1) hlt hfreej
  refine ⟨next_free p1,
    p1.set (next_free p1) (acquire_slot (p1.getD (next_free p1) plqu_dflt)),
    ?_, ?_, ?_, ?_⟩
  · simp only [make_plqu]
    rw [if_pos hlt]
  · rw [getD_set_self _ _ _ _ hlt, acquire_slot_head]
    exact hht.1
  · rw [getD_set_self _ _ _ _ hlt, acquire_slot_tail]
    exact hht.2
  · intro id
    rw [getD_set_self _ _ _ _ hlt]
    have h1 := acquire_slot_head (p1.getD (next_free p1) plqu_dflt)
    have h2 := acquire_slot_tail (p1.getD (next_free p1) plqu_dflt)
    unfold plqu_get
    rw [if_neg (by
      rintro ⟨hgt, hle⟩
      rw [h1, hht.1] at hgt
      rw [h2, hht.2] at hle
      omega)]

set_option maxRecDepth 4000 in
/-- C9 witnessed: acquire slot 0 from the fresh pool, release it, acquire
again — the returned handle is logically empty. -/
theorem release_acquire_round_trip_witness :
    ∃ j p2,
      make_plqu (pool_one_acquired.set 0
          (free_plqu (pool_one_acquired.getD 0 plqu_dflt))) = some (j, p2) ∧
      (p2.getD j plqu_dflt).head = 0 ∧ (p2.getD j plqu_dflt).tail = 0 ∧
      ∀ id, plqu_get (p2.getD j plqu_dflt) id = plqu_val_nil :=
  release_acquire_round_trip pool_one_acquired 0
    (Reach.acq (pool0 Nat) 0 pool_one_acquired Reach.init rfl)
    (by simp [pool_one_acquired, pool0])
    (by decide)

set_option maxRecDepth 4000 in
/-- C8 counterexample: the reachable state right after the first acquire
from the fresh pool has an in-use slot (`z` odd) whose `z` is
`2 ^ 64 - 1` with an empty buffer — there is no buffer length that is a
power of two `≥ 1` with `z` = length − 1, so the claimed invariant fails
on a reachable state. -/
theorem slot_inv_fresh_acquire_cex :
    make_plqu (pool0 Nat) = some (0, pool_one_acquired) ∧
    (pool_one_acquired.getD 0 plqu_dflt).z % 2 = 1 ∧
    (pool_one_acquired.getD 0 plqu_dflt).a.length = 0 ∧
    (pool_one_acquired.getD 0 plqu_dflt).z ≠
      (pool_one_acquired.getD 0 plqu_dflt).a.length - 1 ∧
    ¬ ∃ k : Nat, (pool_one_acquired.getD 0 plqu_dflt).a.length = 2 ^ k := by
  refine ⟨rfl, by decide, by decide, by decide, ?_⟩
  rintro ⟨k, hk⟩
  have h0 : (pool_one_acquired.getD 0 plqu_dflt).a.length = 0 := by decide
  rw [h0] at hk
  exact (Nat.two_pow_pos k).ne' hk.symm

theorem plqu_store_snd_z {α : Type} (q : plqu_s α) (v : PlquVal α) :
    ((plqu_store q v).2).z = q.z := by cases q; rfl

theorem plqu_store_snd_head {α : Type} (q : plqu_s α) (v : PlquVal α) :
    ((plqu_store q v).2).head = q.head := by cases q; rfl

theorem plqu_store_snd_len {α : Type} (q : plqu_s α) (v : PlquVal α) :
    ((plqu_store q v).2).a.length = q.a.length := by
  cases q
  simp [plqu_store]

/-- Growth from the degenerate never-grown in-use state (`z = 2^64 - 1`):
`(z + 1U)` wraps to 0, the elvis picks `PLQU_INIZ = 8`. -/
theorem plqu_grow_degenerate {α : Type} (q : plqu_s α) (hz : q.z = W64 - 1) :
    plqu_grow q = { q with z := 7, a := memcpyWithin (reallocBuf q.a 8) 0 0 } := by
  have hc0 : (q.z + 1) % W64 = 0 := by
    rw [hz]
    norm_num [W64]
  simp only [plqu_grow, hc0]
  norm_num

/-- Growth from capacity `2 ^ k`, `k ≤ 62`: the buffer doubles. -/
theorem plqu_grow_pow {α : Type} (q : plqu_s α) (k : Nat) (hk : k ≤ 62)
    (hz : q.z = 2 ^ k - 1) :
    plqu_grow q =
      { q with
        z := 2 ^ (k + 1) - 1,
        a := memcpyWithin (reallocBuf q.a (2 ^ (k + 1))) (2 ^ k) (2 ^ k) } := by
  have hcpos : 0 < (2:Nat) ^ k := Nat.two_pow_pos k
  have h2k1 : (2:Nat) ^ (k + 1) < W64 := by
    calc (2:Nat) ^ (k + 1) ≤ 2 ^ 63 := Nat.pow_le_pow_right (by norm_num) (by omega)
    _ < W64 := by norm_num [W64]
  have hc1 : (q.z + 1) % W64 = 2 ^ k := by
    rw [hz, Nat.sub_add_cancel hcpos]
    exact Nat.mod_eq_of_lt (by omega)
  have hc2 : (2 ^ k * 2) % W64 = 2 ^ (k + 1) := by
    rw [← Nat.pow_succ]
    exact Nat.mod_eq_of_lt h2k1
  have hne : (2:Nat) ^ (k + 1) ≠ 0 := (Nat.two_pow_pos _).ne'
  simp only [plqu_grow, hc1, hc2]
  rw [if_pos hne]

/-- Growth from capacity `2 ^ 63`: `(z + 1U) * 2U` wraps to 0, the elvis
picks 8 (the C code would then memcpy out of bounds; the total model
truncates — the state is unreachable with real memory anyway). -/
theorem plqu_grow_top {α : Type} (q : plqu_s α) (hz : q.z = 2 ^ 63 - 1) :
    plqu_grow q = { q with z := 7, a := memcpyWithin (reallocBuf q.a 8) (2 ^ 63) (2 ^ 63) } := by
  have hc1 : (q.z + 1) % W64 = 2 ^ 63 := by
    rw [hz]
    norm_num [W64]
  have hc2 : ((2:Nat) ^ 63 * 2) % W64 = 0 := by norm_num [W64]
  simp only [plqu_grow, hc1, hc2]
  norm_num

theorem slotInv_of_odd {α : Type} (t : plqu_s α) (hp : t.z % 2 = 1)
    (hc : (t.z = W64 - 1 ∧ t.a.length = 0) ∨
      (∃ k, 1 ≤ k ∧ k ≤ 63 ∧ t.z = 2 ^ k - 1 ∧ t.a.length = 2 ^ k)) :
    SlotInv t :=
  ⟨fun _ => hc, fun h0 => absurd h0 (by omega)⟩

theorem slotInv_of_even {α : Type} (t : plqu_s α) (hp : t.z % 2 = 0)
    (hc : (t.z = 0 ∧ t.a.length = 0) ∨
      (∃ k, 1 ≤ k ∧ k ≤ 63 ∧ t.z = 2 ^ k ∧ t.a.length = 2 ^ k)) :
    SlotInv t :=
  ⟨fun h1 => absurd h1 (by omega), fun _ => hc⟩

theorem slotInv_congr {α : Type} (s t : plqu_s α) (hz : t.z = s.z)
    (hlen : t.a.length = s.a.length) (h : SlotInv s) : SlotInv t := by
  unfold SlotInv at *
  rw [hz, hlen]
  exact h

/-- C8 (amended): the invariant that holds on every slot and is preserved
by every operation is: an in-use slot (`z` odd) either is a never-grown
fresh acquisition with `z = 2 ^ 64 - 1` and an empty buffer, or has
`z` = buffer length − 1 with buffer length a power of two; a free slot
(`z` even) has `z = 0` with an empty buffer or `z` = buffer length, a
power of two.  It holds of the initial slots, and acquire (on a free
slot), release (on an in-use slot), append (with or without growth, with
or without allocation success, on an in-use slot), put, pop, the
head-update of commit-as-front, and iterator advance (which does not
touch the queue) all preserve it. -/
theorem slot_inv_preserved_amended {α : Type} (s : plqu_s α) (h : SlotInv s) :
    SlotInv (plqu_dflt (α := α)) ∧
    (s.z % 2 = 0 → SlotInv (acquire_slot s)) ∧
    (s.z % 2 = 1 → SlotInv (free_plqu s)) ∧
    (s.z % 2 = 1 → ∀ ok v, SlotInv (plqu_add ok s v).2) ∧
    (∀ i v, SlotInv (plqu_put s i v).2) ∧
    SlotInv (plqu_pop s).2 ∧
    (∀ m, SlotInv { s with head := m }) ∧
    (∀ it, it.q = some s → ((plqu_iter_next it).2).q = some s) := by
  have hW : 0 < W64 := by norm_num [W64]
  refine ⟨?_, ?_, ?_, ?_, ?_, ?_, ?_, ?_⟩
  · exact ⟨fun h1 => absurd h1 (by simp [plqu_dflt]), fun _ => Or.inl ⟨rfl, rfl⟩⟩
  · intro h0
    rcases h.2 h0 with ⟨hz0, hlen0⟩ | ⟨k, hk1, hk63, hzk, hlenk⟩
    · refine slotInv_of_odd _ (acquire_slot_parity s h0)
        (Or.inl ⟨?_, by rw [acquire_slot_a]; exact hlen0⟩)
      show (s.z + (W64 - 1)) % W64 = W64 - 1
      rw [hz0, Nat.zero_add]
      exact Nat.mod_eq_of_lt (by omega)
    · have h2k : (2:Nat) ^ k < W64 := by
        calc (2:Nat) ^ k ≤ 2 ^ 63 := Nat.pow_le_pow_right (by norm_num) hk63
        _ < W64 := by norm_num [W64]
      refine slotInv_of_odd _ (acquire_slot_parity s h0)
        (Or.inr ⟨k, hk1, hk63, ?_, by rw [acquire_slot_a]; exact hlenk⟩)
      show (s.z + (W64 - 1)) % W64 = 2 ^ k - 1
      have hcpos : 0 < (2:Nat) ^ k := Nat.two_pow_pos k
      have hrw : s.z + (W64 - 1) = W64 + (2 ^ k - 1) := by rw [hzk]; omega
      rw [hrw, Nat.add_mod_left]
      exact Nat.mod_eq_of_lt (by omega)
  · intro h1
    rcases h.1 h1 with ⟨hzW, hlen0⟩ | ⟨k, hk1, hk63, hzk, hlenk⟩
    · refine slotInv_of_even _ (free_plqu_parity s h1) (Or.inl ⟨?_, hlen0⟩)
      show (s.z + 1) % W64 = 0
      rw [hzW]
      have : W64 - 1 + 1 = W64 := by omega
      rw [this, Nat.mod_self]
    · have h2k : (2:Nat) ^ k < W64 := by
        calc (2:Nat) ^ k ≤ 2 ^ 63 := Nat.pow_le_pow_right (by norm_num) hk63
        _ < W64 := by norm_num [W64]
      have hcpos : 0 < (2:Nat) ^ k := Nat.two_pow_pos k
      refine slotInv_of_even _ (free_plqu_parity s h1)
        (Or.inr ⟨k, hk1, hk63, ?_, hlenk⟩)
      show (s.z + 1) % W64 = 2 ^ k
      rw [hzk, Nat.sub_add_cancel hcpos]
      exact Nat.mod_eq_of_lt h2k
  · intro h1 ok v
    by_cases htr : (s.tail + W64 - s.head) % W64 ≥ (s.z + 1) % W64
    · cases ok with
      | false =>
        have hstep : plqu_add false s v = (0, s) := by
          unfold plqu_add
          rw [if_pos htr]
          rfl
        rw [hstep]
        exact h
      | true =>
        have hstep : plqu_add true s v = plqu_store (plqu_grow s) v := by
          unfold plqu_add
          rw [if_pos htr]
          rfl
        rw [hstep]
        rcases h.1 h1 with ⟨hzW, hlen0⟩ | ⟨k, hk1, hk63, hzk, hlenk⟩
        · have hg := plqu_grow_degenerate s hzW
          have hz7 : ((plqu_store (plqu_grow s) v).2).z = 7 := by
            rw [plqu_store_snd_z, hg]
          have hlen8 : ((plqu_store (plqu_grow s) v).2).a.length = 8 := by
            rw [plqu_store_snd_len, hg]
            show (memcpyWithin (reallocBuf s.a 8) 0 0).length = 8
            rw [memcpyWithin_length, reallocBuf_length]
          refine slotInv_of_odd _ (by rw [hz7]) (Or.inr ⟨3, by norm_num,
            by norm_num, by rw [hz7]; norm_num, by rw [hlen8]; norm_num⟩)
        · rcases Nat.lt_or_ge k 63 with hklt | hkge
          · have hg := plqu_grow_pow s k (by omega) hzk
            have hzk1 : ((plqu_store (plqu_grow s) v).2).z = 2 ^ (k + 1) - 1 := by
              rw [plqu_store_snd_z, hg]
            have hlenk1 : ((plqu_store (plqu_grow s) v).2).a.length = 2 ^ (k + 1) := by
              rw [plqu_store_snd_len, hg]
              show (memcpyWithin (reallocBuf s.a (2 ^ (k + 1))) (2 ^ k) (2 ^ k)).length
                = 2 ^ (k + 1)
              rw [memcpyWithin_length, reallocBuf_length]
            have hpar : ((plqu_store (plqu_grow s) v).2).z % 2 = 1 := by
              rw [hzk1]
              have : (2:Nat) ^ (k + 1) = 2 * 2 ^ k := by
                rw [Nat.pow_succ, Nat.mul_comm]
              have hcpos : 0 < (2:Nat) ^ k := Nat.two_pow_pos k
              omega
            exact slotInv_of_odd _ hpar
              (Or.inr ⟨k + 1, by omega, by omega, hzk1, hlenk1⟩)
          · have hk63' : k = 63 := by omega
            subst hk63'
            have hg := plqu_grow_top s hzk
            have hz7 : ((plqu_store (plqu_grow s) v).2).z = 7 := by
              rw [plqu_store_snd_z, hg]
            have hlen8 : ((plqu_store (plqu_grow s) v).2).a.length = 8 := by
              rw [plqu_store_snd_len, hg]
              show (memcpyWithin (reallocBuf s.a 8) (2 ^ 63) (2 ^ 63)).length = 8
              rw [memcpyWithin_length, reallocBuf_length]
            refine slotInv_of_odd _ (by rw [hz7]) (Or.inr ⟨3, by norm_num,
              by norm_num, by rw [hz7]; norm_num, by rw [hlen8]; norm_num⟩)
    · have hstep : plqu_add ok s v = plqu_store s v := by
        unfold plqu_add
        rw [if_neg htr]
      rw [hstep]
      exact slotInv_congr s _ (plqu_store_snd_z s v) (plqu_store_snd_len s v) h
  · intro i v
    unfold plqu_put
    by_cases hc : i > s.head ∧ i ≤ s.tail
    · rw [if_pos hc]
      refine slotInv_congr s _ rfl ?_ h
      show (s.a.set ((i - 1) &&& s.z) v).length = s.a.length
      simp
    · rw [if_neg hc]
      exact h
  · unfold plqu_pop
    by_cases hc : s.head < s.tail
    · rw [if_pos hc]
      exact slotInv_congr s _ rfl rfl h
    · rw [if_neg hc]
      exact h
  · intro m
    exact slotInv_congr s _ rfl rfl h
  · intro it hq
    rw [plqu_iter_next_eq it s hq]
    dsimp only
    exact hq

/-- C8 amended, witnessed on an in-use capacity-8 queue through a growing
append. -/
theorem slot_inv_preserved_amended_witness :
    SlotInv ((plqu_add true
      (plqu_s.mk 7 (List.replicate 8 (plqu_val_nil (α := Nat))) 0 8)
      (PlquVal.val 9)).2) :=
  (slot_inv_preserved_amended
    (plqu_s.mk 7 (List.replicate 8 (plqu_val_nil (α := Nat))) 0 8)
    ⟨fun _ => Or.inr ⟨3, by norm_num, by norm_num, by norm_num, by simp⟩,
     fun h0 => absurd h0 (by norm_num)⟩).2.2.2.1 (by norm_num) true (PlquVal.val 9)

/-- First append on a freshly acquired never-grown queue: grows to
capacity 8, stores at cell 0, returns id 1. -/
theorem plqu_add_fresh_eq {α : Type} (q : plqu_s α) (v : PlquVal α)
    (hz : q.z = W64 - 1) (_hh : q.head = 0) (ht : q.tail = 0) :
    plqu_add true q v =
      (1, { q with
            z := 7,
            a := (memcpyWithin (reallocBuf q.a 8) 0 0).set 0 v,
            tail := 1 }) := by
  have hc0 : (q.z + 1) % W64 = 0 := by
    rw [hz]
    norm_num [W64]
  have htr : (q.tail + W64 - q.head) % W64 ≥ (q.z + 1) % W64 := by
    rw [hc0]
    exact Nat.zero_le _
  have hstep : plqu_add true q v = plqu_store (plqu_grow q) v := by
    unfold plqu_add
    rw [if_pos htr]
    rfl
  have hg := plqu_grow_degenerate q hz
  rw [hstep, hg]
  unfold plqu_store
  dsimp only
  rw [ht]
  simp [W64]

/-- Append without growth: when the window is strictly below capacity
`2 ^ k` (and `head = 0`), the value lands at cell `tail` and the id is
`tail + 1`. -/
theorem plqu_add_nogrow_eq {α : Type} (q : plqu_s α) (v : PlquVal α) (k : Nat)
    (hk : k ≤ 62) (hz : q.z = 2 ^ k - 1) (hh : q.head = 0)
    (hT : q.tail < 2 ^ k) :
    plqu_add true q v =
      (q.tail + 1, { q with a := q.a.set q.tail v, tail := q.tail + 1 }) := by
  have hcpos : 0 < (2:Nat) ^ k := Nat.two_pow_pos k
  have h2k : (2:Nat) ^ k < W64 := by
    calc (2:Nat) ^ k ≤ 2 ^ 62 := Nat.pow_le_pow_right (by norm_num) hk
    _ < W64 := by norm_num [W64]
  have hc1 : (q.z + 1) % W64 = 2 ^ k := by
    rw [hz, Nat.sub_add_cancel hcpos]
    exact Nat.mod_eq_of_lt h2k
  have htr : ¬ ((q.tail + W64 - q.head) % W64 ≥ (q.z + 1) % W64) := by
    rw [hc1, hh, Nat.sub_zero, Nat.add_mod_right,
      Nat.mod_eq_of_lt (by omega : q.tail < W64)]
    omega
  have hstep : plqu_add true q v = plqu_store q v := by
    unfold plqu_add
    rw [if_neg htr]
  have hm : (q.tail + 1) % W64 = q.tail + 1 := Nat.mod_eq_of_lt (by omega)
  have hand : q.tail &&& q.z = q.tail := by
    rw [hz, Nat.and_pow_two_sub_one_eq_mod]
    exact Nat.mod_eq_of_lt hT
  rw [hstep]
  unfold plqu_store
  rw [hm, hand]

/-- One append (memory available) on a queue satisfying `InvP p`: the
returned id is `p.length + 1` and the invariant advances to `p ++ [v]`. -/
theorem plqu_add_invP_step {α : Type} (p : List (PlquVal α)) (q : plqu_s α)
    (v : PlquVal α) (h : InvP p q) (hN : p.length < 2 ^ 62) :
    (plqu_add true q v).1 = p.length + 1 ∧
    InvP (p ++ [v]) (plqu_add true q v).2 := by
  obtain ⟨hh, ht, hcase⟩ := h
  rcases hcase with ⟨hzW, haNil, hpNil⟩ | ⟨k, hk3, hk62, hz, hlen, hple, hval⟩
  · subst hpNil
    have ht0 : q.tail = 0 := by simpa using ht
    have heq := plqu_add_fresh_eq q v hzW hh ht0
    rw [heq]
    have hlen8 : ((memcpyWithin (reallocBuf q.a 8) 0 0).set 0 v).length = 8 := by
      rw [List.length_set, memcpyWithin_length, reallocBuf_length]
    refine ⟨rfl, hh, by simp, Or.inr ⟨3, by norm_num, by norm_num,
      by norm_num, by rw [hlen8]; norm_num, by simp, ?_⟩⟩
    intro i hi
    simp only [List.nil_append, List.length_cons, List.length_nil] at hi
    have hi0 : i = 0 := by omega
    subst hi0
    rw [getD_set_self _ _ _ _ (by rw [memcpyWithin_length, reallocBuf_length]; norm_num)]
    simp
  · have hcpos : 0 < (2:Nat) ^ k := Nat.two_pow_pos k
    have hWbig : (2:Nat) ^ 62 < W64 := by norm_num [W64]
    by_cases hfull : 2 ^ k ≤ p.length
    · have hfull' : p.length = 2 ^ k := Nat.le_antisymm hple hfull
      have hklt : k < 62 := by
        by_contra hc
        push_neg at hc
        have : (2:Nat) ^ 62 ≤ 2 ^ k := Nat.pow_le_pow_right (by norm_num) hc
        omega
      have hTW : q.tail < W64 := by
        rw [ht]
        omega
      have hshape := plqu_add_grow_shape q v k (by omega) hz (by rw [hh]; omega)
        hTW (by rw [ht, hh, Nat.sub_zero, hfull'])
      rw [hshape]
      have hid : (q.tail + 1) % W64 = p.length + 1 := by
        rw [ht]
        exact Nat.mod_eq_of_lt (by omega)
      have h2c : (2:Nat) ^ (k + 1) = 2 * 2 ^ k := by
        rw [Nat.pow_succ, Nat.mul_comm]
      have hsetlen :
          ((memcpyWithin (reallocBuf q.a (2 * 2 ^ k)) (2 ^ k) (2 ^ k)).set
            (q.tail % (2 * 2 ^ k)) v).length = 2 * 2 ^ k := by
        rw [List.length_set, memcpyWithin_length, reallocBuf_length]
      have hidx : q.tail % (2 * 2 ^ k) = p.length := by
        rw [ht, hfull']
        exact Nat.mod_eq_of_lt (by omega)
      refine ⟨hid, hh, by rw [hid]; simp, Or.inr ⟨k + 1, by omega, by omega,
        by rw [h2c], by rw [hsetlen, h2c], by simp; omega, ?_⟩⟩
      intro i hi
      simp only [List.length_append, List.length_cons, List.length_nil] at hi
      rw [hidx]
      rcases Nat.lt_or_ge i p.length with hilt | hige
      · rw [getD_set_ne _ _ _ _ _ (by omega)]
        rw [getD_grown q.a (2 ^ k) i hcpos hlen (by omega)]
        rw [Nat.mod_eq_of_lt (by omega)]
        rw [hval i hilt, List.getD_append _ _ _ _ hilt]
      · have hieq : i = p.length := by omega
        subst hieq
        rw [getD_set_self _ _ _ _ (by rw [memcpyWithin_length, reallocBuf_length]; omega)]
        rw [List.getD_append_right _ _ _ _ hige, Nat.sub_self]
        rfl
    · push_neg at hfull
      have heq := plqu_add_nogrow_eq q v k (by omega) hz hh (by rw [ht]; exact hfull)
      rw [heq, ht]
      refine ⟨rfl, hh, by simp, Or.inr ⟨k, hk3, hk62, hz, by simp [hlen],
        by simp; omega, ?_⟩⟩
      intro i hi
      simp only [List.length_append, List.length_cons, List.length_nil] at hi
      rcases Nat.lt_or_ge i p.length with hilt | hige
      · rw [getD_set_ne _ _ _ _ _ (by omega)]
        rw [hval i hilt, List.getD_append _ _ _ _ hilt]
      · have hieq : i = p.length := by omega
        subst hieq
        rw [getD_set_self _ _ _ _ (by omega)]
        rw [List.getD_append_right _ _ _ _ hige, Nat.sub_self]
        rfl

/-- Appending a whole list through `addAll` keeps `InvP` and returns the
consecutive ids `p.length + 1, ..., p.length + vs.length`. -/
theorem addAll_invP {α : Type} (vs : List (PlquVal α)) :
    ∀ (p : List (PlquVal α)) (q : plqu_s α), InvP p q →
      p.length + vs.length ≤ 2 ^ 62 →
      InvP (p ++ vs) (addAll q vs).1 ∧
      (addAll q vs).2 = List.range' (p.length + 1) vs.length := by
  induction vs with
  | nil =>
    intro p q h hlen
    simp only [addAll]
    exact ⟨by simpa using h, by simp⟩
  | cons v rest ih =>
    intro p q h hlen
    simp only [List.length_cons] at hlen
    obtain ⟨hid, hinv⟩ := plqu_add_invP_step p q v h (by omega)
    have ih2 := ih (p ++ [v]) (plqu_add true q v).2 hinv
      (by simp only [List.length_append, List.length_cons, List.length_nil]; omega)
    simp only [addAll, List.length_cons]
    constructor
    · have h1 := ih2.1
      rw [List.append_assoc] at h1
      simpa using h1
    · rw [List.range'_succ, hid, ih2.2]
      simp only [List.length_append, List.length_cons, List.length_nil]

/-- C3: on a freshly acquired queue (`head = tail = 0`, never-grown or
pre-warmed to a power-of-two capacity) with memory available, appending
`N ≤ 2 ^ 62` values yields ids `1, 2, ..., N` (the k-th append returns
id `k`, equal to the new tail), and afterwards `plqu_get m` returns
exactly the m-th appended value for every `m` in `1..N`. -/
theorem plqu_add_sequence_ids_and_get {α : Type} (vs : List (PlquVal α))
    (q0 : plqu_s α) (h0 : InvP [] q0) (hN : vs.length ≤ 2 ^ 62) :
    (addAll q0 vs).2 = List.range' 1 vs.length ∧
    (addAll q0 vs).1.tail = vs.length ∧
    ∀ m, 1 ≤ m → m ≤ vs.length →
      plqu_get (addAll q0 vs).1 m = vs.getD (m - 1) plqu_val_nil := by
  obtain ⟨hinv, hids⟩ := addAll_invP vs [] q0 h0 (by simpa using hN)
  obtain ⟨hh, ht, hcase⟩ := hinv
  have htail : (addAll q0 vs).1.tail = vs.length := by simpa using ht
  refine ⟨by simpa using hids, htail, ?_⟩
  intro m hm1 hm2
  rcases hcase with ⟨_, _, hnil⟩ | ⟨k, hk3, hk62, hz, hlen, hple, hval⟩
  · exfalso
    have : vs = [] := by simpa using hnil
    subst this
    simp at hm2
    omega
  · unfold plqu_get
    rw [if_pos ⟨by rw [hh]; omega, by rw [htail]; exact hm2⟩]
    have hvslen : vs.length ≤ 2 ^ k := by simpa using hple
    rw [hz, Nat.and_pow_two_sub_one_eq_mod, Nat.mod_eq_of_lt (by omega)]
    have hv := hval (m - 1) (by simp; omega)
    simpa using hv

/-- C3 witnessed: two appends on a fresh never-grown queue give ids
`[1, 2]`, and `get 2` returns the second value. -/
theorem plqu_add_sequence_ids_and_get_witness :
    (addAll (plqu_s.mk (W64 - 1) ([] : List (PlquVal Nat)) 0 0)
        [PlquVal.val 10, PlquVal.val 20]).2 = List.range' 1 2 ∧
    plqu_get (addAll (plqu_s.mk (W64 - 1) ([] : List (PlquVal Nat)) 0 0)
        [PlquVal.val 10, PlquVal.val 20]).1 2 =
      [PlquVal.val (10:Nat), PlquVal.val 20].getD (2 - 1) plqu_val_nil :=
  ⟨(plqu_add_sequence_ids_and_get [PlquVal.val 10, PlquVal.val 20]
      (plqu_s.mk (W64 - 1) [] 0 0) ⟨rfl, rfl, Or.inl ⟨rfl, rfl, rfl⟩⟩
      (by norm_num)).1,
   (plqu_add_sequence_ids_and_get [PlquVal.val 10, PlquVal.val 20]
      (plqu_s.mk (W64 - 1) [] 0 0) ⟨rfl, rfl, Or.inl ⟨rfl, rfl, rfl⟩⟩
      (by norm_num)).2.2 2 (by norm_num) (by norm_num)⟩
